import Mathlib

/-!
Verification of the dynet growable memory-arena subsystem
(`src/unnamed/part_000`, header `dynet/aligned-mem-pool.h`).

The header declares three classes:
* `BaseMemoryPool` — abstract segment with a public `used` field (line 21);
* `DynamicCPUMemoryPool` — per-request dynamic segment; `free` and
  `zero_allocated_memory` bodies are in the header (lines 52-62);
* `InternalMemoryPool` — fixed bump-pointer segment; `free` and
  `zero_allocated_memory` bodies are in the header (lines 82-90), and it
  declares its own `used` member (line 92) shadowing the inherited one;
* `AlignedMemoryPool` — the growable pool (lines 101-126, declarations only).

Method bodies that the repository does not contain under `src/`
(`InternalMemoryPool::allocate`, `DynamicCPUMemoryPool::allocate` / `sys_alloc`,
and every `AlignedMemoryPool` method) are modelled from the spec; their doc
comments say so explicitly.

Machine addresses and byte contents are embedded over `Nat`; calls into the
raw allocator (`MemAllocator`) are recorded as an explicit event trace so that
claims about which backend calls an operation performs become statements about
that trace.
-/

namespace DynetMemPool

/-- Which raw allocator a backend call goes through: the allocator injected at
construction (possibly a device allocator), or the private `CPUAllocator` that
`DynamicCPUMemoryPool` builds for itself (source line 41). -/
inductive AllocRef where
  | injected
  | privateCPU
deriving DecidableEq, Repr

/-- One call into a raw `MemAllocator`: `allocate(n)`, `free(p)`, or
`zero(p, n)` (spec section 6), tagged with the allocator it goes through. -/
inductive AllocEvent where
  | alloc (ref : AllocRef) (n : Nat)
  | free (ref : AllocRef) (p : Nat)
  | zero (ref : AllocRef) (p : Nat) (n : Nat)
deriving DecidableEq, Repr

/-- The allocator an event goes through. -/
def AllocEvent.ref : AllocEvent → AllocRef
  | .alloc r _ => r
  | .free r _ => r
  | .zero r _ _ => r

/-- Whether an event is a backend `free` call. -/
def AllocEvent.isFree : AllocEvent → Bool
  | .free _ _ => true
  | _ => false

/-- Modelled from the spec: the raw allocator's `round_up_align` (the header
includes `dynet/mem.h`, which is not under `src/`). The spec says sizes are
"rounded to the alignment granularity"; `align` is that granularity. -/
def round_up_align (align n : Nat) : Nat :=
  if align = 0 then n else ((n + align - 1) / align) * align

/-- Fixed segment (`InternalMemoryPool`, source lines 69-99).

`capacity`, `mem` and the shadowed `base_used` fields come from
`BaseMemoryPool` (lines 21, 28, 29); `used` is the member the derived class
declares at line 92, which shadows `BaseMemoryPool::used`.  `buf i` is the
byte stored at offset `i` of the backing buffer (callers may write through
returned pointers, so the contents are arbitrary). -/
structure InternalMemoryPool where
  capacity : Nat
  /-- the shadowing member declared at line 92 -/
  used : Nat
  /-- the inherited `BaseMemoryPool::used` (line 21); never initialized by
  `InternalMemoryPool`, so it holds an arbitrary junk value -/
  base_used : Nat
  mem : Nat
  buf : Nat → Nat

namespace InternalMemoryPool

/-- Constructor (source lines 71-74): `sys_alloc(cap)` acquires one contiguous
buffer of `cap` bytes from the injected allocator, and `zero_all()` (lines
96-98) zeros it fully via `a->zero(mem, capacity)`.  `sys_alloc`'s body is not
under `src/`; it is modelled from the spec ("acquires one contiguous buffer
from its allocator").  `memAddr` is the address the allocator returns, `junk`
the indeterminate initial value of the inherited `used` field, and `b0` the
indeterminate initial buffer contents outside the zeroed range. -/
def construct (cap memAddr junk : Nat) (b0 : Nat → Nat) :
    InternalMemoryPool × List AllocEvent :=
  ({ capacity := cap, used := 0, base_used := junk, mem := memAddr,
     buf := fun i => if i < cap then 0 else b0 i },
   [.alloc .injected cap, .zero .injected memAddr cap])

/-- Modelled from the spec: `InternalMemoryPool::allocate` (declared at source
line 80, body not under `src/`).  "`allocate(n)` is pure bump-pointer: returns
the buffer base plus the current `used` offset, then advances `used` by n
(rounded to the alignment granularity); if `used + n` would exceed `capacity`
it signals exhaustion" (spec section 4.3; the rounded size is what `used`
advances by, so it is also what must fit).  The returned value is the offset
from the buffer base; `none` signals exhaustion. -/
def allocate (align : Nat) (p : InternalMemoryPool) (n : Nat) :
    InternalMemoryPool × Option Nat :=
  let rn := round_up_align align n
  if p.used + rn > p.capacity then (p, none)
  else ({ p with used := p.used + rn }, some p.used)

/-- `InternalMemoryPool::free` (source lines 82-85): `used = 0;` — nothing
else; in particular no call into the allocator, hence the empty trace. -/
def free (p : InternalMemoryPool) : InternalMemoryPool × List AllocEvent :=
  ({ p with used := 0 }, [])

/-- `InternalMemoryPool::zero_allocated_memory` (source lines 87-90):
`if (used == 0) return; a->zero(mem, used);`. -/
def zero_allocated_memory (p : InternalMemoryPool) :
    InternalMemoryPool × List AllocEvent :=
  if p.used = 0 then (p, [])
  else ({ p with buf := fun i => if i < p.used then 0 else p.buf i },
        [.zero .injected p.mem p.used])

/-- Destructor (source lines 76-78): `a->free(mem);` — the one place the
backing buffer is returned to the allocator. -/
def destruct (p : InternalMemoryPool) : List AllocEvent :=
  [.free .injected p.mem]

end InternalMemoryPool

/-- Dynamic segment (`DynamicCPUMemoryPool`, source lines 32-67).
`ptrs`/`sizes` are the bookkeeping vectors (lines 34-35); `a` is the
(re-assigned) allocator member; `nextPtr` models the supply of fresh
addresses the host allocator returns. -/
structure DynamicCPUMemoryPool where
  ptrs : List Nat
  sizes : List Nat
  a : AllocRef
  nextPtr : Nat
deriving DecidableEq, Repr

namespace DynamicCPUMemoryPool

/-- Constructor (source lines 38-42): `sys_alloc(cap); zero_all();
this->a = new CPUAllocator();`.  `zero_all()` is the empty body at line 66;
`sys_alloc`'s body is not under `src/` and is modelled from the spec ("any
construction-time capacity hint is accepted for interface symmetry but not
eagerly reserved"), i.e. it performs no backend call.  The constructor
therefore emits no allocator events and ends with `a` pointing at the
segment's own private CPU allocator, whatever allocator was injected. -/
def construct (cap : Nat) : DynamicCPUMemoryPool × List AllocEvent :=
  ({ ptrs := [], sizes := [], a := .privateCPU, nextPtr := 0 }, [])

/-- Modelled from the spec: `DynamicCPUMemoryPool::allocate` (declared at
source line 49, body not under `src/`).  "`allocate(n)` requests exactly n
bytes as a fresh, standalone block, records (pointer, size), and returns the
pointer" (spec section 4.4); Dynamic segments never signal exhaustion. -/
def allocate (p : DynamicCPUMemoryPool) (n : Nat) :
    DynamicCPUMemoryPool × Option Nat × List AllocEvent :=
  ({ p with ptrs := p.ptrs ++ [p.nextPtr], sizes := p.sizes ++ [n],
            nextPtr := p.nextPtr + 1 },
   some p.nextPtr, [.alloc p.a n])

/-- `DynamicCPUMemoryPool::free` (source lines 52-57): one `a->free(p)` per
recorded pointer, then both bookkeeping vectors are cleared. -/
def free (p : DynamicCPUMemoryPool) : DynamicCPUMemoryPool × List AllocEvent :=
  ({ p with ptrs := [], sizes := [] }, p.ptrs.map (fun q => .free p.a q))

/-- `DynamicCPUMemoryPool::zero_allocated_memory` (source lines 59-62):
`zero(ptrs[i], sizes[i])` for each record; `zero` (declared at line 50, body
not under `src/`) is modelled from the spec as `a->zero(p, n)`. -/
def zero_allocated_memory (p : DynamicCPUMemoryPool) :
    DynamicCPUMemoryPool × List AllocEvent :=
  (p, (p.ptrs.zip p.sizes).map (fun qn => .zero p.a qn.1 qn.2))

/-- Apply a sequence of `allocate` calls, discarding results and traces. -/
def allocMany (p : DynamicCPUMemoryPool) (ns : List Nat) : DynamicCPUMemoryPool :=
  ns.foldl (fun q n => (q.allocate n).1) p

end DynamicCPUMemoryPool

/-- A segment held by the growable pool: the Fixed/Dynamic split, realised in
the source through virtual dispatch over `BaseMemoryPool*`, embedded as a
tagged variant (spec section 9 design note). -/
inductive Seg where
  | fixed (s : InternalMemoryPool)
  | dyn (s : DynamicCPUMemoryPool)

namespace Seg

/-- The segment's allocation cursor: the shadowing `used` member for Fixed;
for Dynamic, "`used` defined as their size sum" (spec section 3). -/
def used : Seg → Nat
  | .fixed s => s.used
  | .dyn s => s.sizes.sum

/-- Whether the segment can satisfy a request of `n` bytes (spec section 4.5
step 1: "consult the active segment's remaining capacity, tracked by the
pool").  Fixed: the rounded request fits; Dynamic: always ("Dynamic segments
never exhaust", spec section 4.2). -/
def canSatisfy (align : Nat) (g : Seg) (n : Nat) : Bool :=
  match g with
  | .fixed s => s.used + round_up_align align n ≤ s.capacity
  | .dyn _ => true

/-- Delegate `allocate` to the variant.  The returned `Nat` is the offset from
the buffer base for Fixed, the fresh block pointer for Dynamic. -/
def allocate (align : Nat) (g : Seg) (n : Nat) :
    Seg × Option Nat × List AllocEvent :=
  match g with
  | .fixed s =>
      let (s', r) := s.allocate align n
      (.fixed s', r, [])
  | .dyn s =>
      let (s', r, evs) := s.allocate n
      (.dyn s', r, evs)

/-- Delegate `free` to the variant. -/
def free (g : Seg) : Seg × List AllocEvent :=
  match g with
  | .fixed s => let (s', evs) := s.free; (.fixed s', evs)
  | .dyn s => let (s', evs) := s.free; (.dyn s', evs)

/-- Delegate `zero_allocated_memory` to the variant. -/
def zero_allocated_memory (g : Seg) : Seg × List AllocEvent :=
  match g with
  | .fixed s => let (s', evs) := s.zero_allocated_memory; (.fixed s', evs)
  | .dyn s => let (s', evs) := s.zero_allocated_memory; (.dyn s', evs)

/-- Overwrite the segment's allocation cursor (used by the pool's
`set_used`).  Dynamic segments have no cursor to restore, so they are left
unchanged. -/
def setUsed (g : Seg) (v : Nat) : Seg :=
  match g with
  | .fixed s => .fixed { s with used := v }
  | .dyn s => .dyn s

end Seg

/-- The growable pool (`AlignedMemoryPool`, source lines 101-126; every method
body is absent from `src/`, so the operations below are modelled from the
spec, section 4.5).  `align` is the injected allocator's alignment
granularity. -/
structure AlignedMemoryPool where
  pools : List Seg
  current : Nat
  expanding_unit : Nat
  dynamic : Bool
  align : Nat

namespace AlignedMemoryPool

/-- Modelled from the spec: a fresh segment of the configured variant, of
`size` bytes (spec section 4.5 step 3: "construct a new segment of the
configured variant using the pool's allocator").  `memAddr` stands for the
address the allocator hands the new Fixed buffer. -/
def mkSeg (dynamic : Bool) (size memAddr : Nat) : Seg :=
  if dynamic then .dyn (DynamicCPUMemoryPool.construct size).1
  else .fixed (InternalMemoryPool.construct size memAddr 0 (fun _ => 0)).1

/-- Modelled from the spec: the `AlignedMemoryPool` constructor (declared at
source line 103).  It creates the first segment, of the initial capacity, of
the variant selected by the `dynamic` flag, with `current` at 0. -/
def construct (align initial_cap expanding_unit : Nat) (dynamic : Bool) :
    AlignedMemoryPool :=
  { pools := [mkSeg dynamic initial_cap 0], current := 0,
    expanding_unit := expanding_unit, dynamic := dynamic, align := align }

/-- Modelled from the spec: `AlignedMemoryPool::allocate` (declared at source
line 106).  Spec section 4.5: if the active segment can satisfy n, delegate
directly; otherwise compute a new segment size = max(n, expanding_unit)
rounded to the alignment granularity, construct a new segment of the
configured variant, append it, advance `current` to point at it, and allocate
n from the new segment.  The result is `(segment index, offset-or-pointer)`;
fresh Fixed buffers get the old segment count as a stand-in address. -/
def allocate (p : AlignedMemoryPool) (n : Nat) :
    AlignedMemoryPool × Option (Nat × Nat) :=
  match p.pools[p.current]? with
  | none => (p, none)
  | some g =>
      if g.canSatisfy p.align n then
        let (g', r, _) := g.allocate p.align n
        ({ p with pools := p.pools.set p.current g' },
         r.map (fun off => (p.current, off)))
      else
        let newSize := round_up_align p.align (max n p.expanding_unit)
        let g0 := mkSeg p.dynamic newSize p.pools.length
        let (g', r, _) := g0.allocate p.align n
        ({ p with pools := p.pools ++ [g'], current := p.pools.length },
         r.map (fun off => (p.pools.length, off)))

/-- Modelled from the spec: `AlignedMemoryPool::free` (declared at source line
108).  Spec section 4.5: "calls `free()` on every segment in the list and
resets `current` to 0". -/
def free (p : AlignedMemoryPool) : AlignedMemoryPool × List AllocEvent :=
  ({ p with pools := p.pools.map (fun g => (Seg.free g).1), current := 0 },
   (p.pools.map (fun g => (Seg.free g).2)).flatten)

/-- Modelled from the spec: `AlignedMemoryPool::used` (declared at source line
112).  Spec section 4.5: "aggregate sum of `used` across all segments up to
and including `current`". -/
def used (p : AlignedMemoryPool) : Nat :=
  ((p.pools.take (p.current + 1)).map Seg.used).sum

/-- Modelled from the spec: `AlignedMemoryPool::set_used` (declared at source
line 113).  Spec section 4.5: restores the allocation cursor to a previously
observed value `s`, assumed to be a valid high-water mark within the current
segment layout; it does not remove or merge segments, and does not touch the
already-saturated segments before `current` — only the current segment's
cursor is rewritten, to `s` minus what the earlier segments hold. -/
def set_used (p : AlignedMemoryPool) (s : Nat) : AlignedMemoryPool :=
  match p.pools[p.current]? with
  | none => p
  | some g =>
      let prior := ((p.pools.take p.current).map Seg.used).sum
      { p with pools := p.pools.set p.current (g.setUsed (s - prior)) }

/-- Modelled from the spec: `AlignedMemoryPool::zero_allocated_memory`
(declared at source line 110).  Spec section 4.5: zeros only the bytes
allocated since the last `free()`, across every active segment (the segments
up to and including `current`). -/
def zero_allocated_memory (p : AlignedMemoryPool) :
    AlignedMemoryPool × List AllocEvent :=
  let zs := (p.pools.take (p.current + 1)).map Seg.zero_allocated_memory
  ({ p with pools := zs.map Prod.fst ++ p.pools.drop (p.current + 1) },
   (zs.map Prod.snd).flatten)

/-- Apply a sequence of pool-level `allocate` calls, discarding results. -/
def allocMany (p : AlignedMemoryPool) (ns : List Nat) : AlignedMemoryPool :=
  ns.foldl (fun q n => (q.allocate n).1) p

end AlignedMemoryPool

/-- The capacity of a Fixed segment (0 for Dynamic, which has no capacity). -/
def Seg.segmentCapacity : Seg → Nat
  | .fixed s => s.capacity
  | .dyn _ => 0

/-- One abstract call on a Fixed segment, for reasoning about operation
sequences. -/
inductive IMPOp where
  | alloc (n : Nat)
  | free
  | zeroMem

/-- Run one `IMPOp` on a Fixed segment (results and traces discarded). -/
def InternalMemoryPool.step (align : Nat) (p : InternalMemoryPool) :
    IMPOp → InternalMemoryPool
  | .alloc n => (p.allocate align n).1
  | .free => p.free.1
  | .zeroMem => p.zero_allocated_memory.1

/-- Run a sequence of `IMPOp`s on a Fixed segment. -/
def InternalMemoryPool.run (align : Nat) (p : InternalMemoryPool) :
    List IMPOp → InternalMemoryPool
  | [] => p
  | op :: ops => (p.step align op).run align ops

/-- One abstract call on a Dynamic segment. -/
inductive DCPOp where
  | alloc (n : Nat)
  | free
  | zeroMem

/-- Run one `DCPOp` on a Dynamic segment, collecting its allocator trace. -/
def DynamicCPUMemoryPool.step (p : DynamicCPUMemoryPool) :
    DCPOp → DynamicCPUMemoryPool × List AllocEvent
  | .alloc n => let (p', _, evs) := p.allocate n; (p', evs)
  | .free => p.free
  | .zeroMem => p.zero_allocated_memory

/-- Run a sequence of `DCPOp`s on a Dynamic segment, concatenating the
allocator traces. -/
def DynamicCPUMemoryPool.run (p : DynamicCPUMemoryPool) :
    List DCPOp → DynamicCPUMemoryPool × List AllocEvent
  | [] => (p, [])
  | op :: ops =>
      let (p', evs) := p.step op
      let (p'', evs') := p'.run ops
      (p'', evs ++ evs')

/-- Per-allocation offsets: run a sequence of `allocate` calls on a Fixed
segment, returning the final segment and the offset each call returned. -/
def InternalMemoryPool.allocManyOff (align : Nat) (p : InternalMemoryPool) :
    List Nat → InternalMemoryPool × List (Option Nat)
  | [] => (p, [])
  | n :: rest =>
      let (p', r) := p.allocate align n
      let (p'', rs) := p'.allocManyOff align rest
      (p'', r :: rs)

/-- The alignment-rounded sum of the first `i` requested sizes. -/
def roundedTake (align : Nat) (ns : List Nat) (i : Nat) : Nat :=
  ((ns.take i).map (round_up_align align)).sum

/-! ### Arithmetic and list helper lemmas -/

theorem round_up_align_ge (align n : Nat) (h : 0 < align) :
    n ≤ round_up_align align n := by
  unfold round_up_align
  rw [if_neg (Nat.pos_iff_ne_zero.mp h)]
  have hd := Nat.div_add_mod (n + align - 1) align
  have hm : (n + align - 1) % align < align := Nat.mod_lt _ h
  have hc : ((n + align - 1) / align) * align = align * ((n + align - 1) / align) :=
    Nat.mul_comm _ _
  rw [hc]
  generalize align * ((n + align - 1) / align) = x at *
  omega

theorem round_up_align_mono (align : Nat) {n m : Nat} (h : n ≤ m) :
    round_up_align align n ≤ round_up_align align m := by
  unfold round_up_align
  split
  · exact h
  · exact Nat.mul_le_mul_right _ (Nat.div_le_div_right (by omega))

theorem round_up_align_le_of_dvd (align n c : Nat) (h : 0 < align)
    (hd : align ∣ c) (hn : n ≤ c) : round_up_align align n ≤ c := by
  obtain ⟨k, rfl⟩ := hd
  unfold round_up_align
  rw [if_neg (Nat.pos_iff_ne_zero.mp h)]
  have h1 : (n + align - 1) / align ≤ k := by
    apply Nat.le_of_lt_succ
    rw [Nat.div_lt_iff_lt_mul h]
    have h2 : (k + 1) * align = align * k + align := by ring
    rw [h2]
    omega
  calc (n + align - 1) / align * align ≤ k * align := Nat.mul_le_mul_right _ h1
    _ = align * k := Nat.mul_comm _ _

theorem list_take_set {α : Type} (l : List α) (i : Nat) (x : α) :
    (l.set i x).take i = l.take i := by
  apply List.ext_getElem?
  intro m
  rw [List.getElem?_take, List.getElem?_take]
  split
  · exact List.getElem?_set_ne (by omega)
  · rfl

theorem list_set_of_getElem? {α : Type} {l : List α} {i : Nat} {x : α}
    (h : l[i]? = some x) : l.set i x = l := by
  apply List.ext_getElem?
  intro m
  by_cases hm : i = m
  · subst hm
    have hi : i < l.length := by
      rcases List.getElem?_eq_some.mp h with ⟨hlt, _⟩
      exact hlt
    rw [List.getElem?_set_self hi, h]
  · exact List.getElem?_set_ne hm

theorem roundedTake_zero (align : Nat) (ns : List Nat) :
    roundedTake align ns 0 = 0 := rfl

theorem roundedTake_cons (align n : Nat) (rest : List Nat) (i : Nat) :
    roundedTake align (n :: rest) (i + 1) =
      round_up_align align n + roundedTake align rest i := by
  simp [roundedTake, List.take_succ_cons]

theorem roundedTake_mono (align : Nat) (ns : List Nat) {i j : Nat}
    (h : i ≤ j) : roundedTake align ns i ≤ roundedTake align ns j := by
  unfold roundedTake
  have hpre : ns.take i = (ns.take j).take i := by
    rw [List.take_take, Nat.min_eq_left h]
  rw [hpre]
  conv_rhs => rw [← List.take_append_drop i (ns.take j)]
  rw [List.map_append, List.sum_append]
  omega

theorem roundedTake_succ (align : Nat) (ns : List Nat) {i : Nat}
    (h : i < ns.length) :
    roundedTake align ns (i + 1) =
      roundedTake align ns i + round_up_align align (ns.get ⟨i, h⟩) := by
  unfold roundedTake
  rw [List.take_succ]
  have hget : ns[i]? = some (ns.get ⟨i, h⟩) := by
    rw [List.getElem?_eq_getElem h]
    rfl
  rw [hget]
  rw [Option.toList_some, List.map_append, List.sum_append]
  simp

/-! ### Dynamic-segment helper lemmas -/

theorem DynamicCPUMemoryPool.step_a (p : DynamicCPUMemoryPool) (op : DCPOp) :
    (p.step op).1.a = p.a ∧
      ((p.step op).2.all (fun e => e.ref == p.a)) = true := by
  cases op with
  | alloc n =>
      simp [DynamicCPUMemoryPool.step, DynamicCPUMemoryPool.allocate,
        AllocEvent.ref]
  | free =>
      refine ⟨rfl, ?_⟩
      show ((p.ptrs.map (fun q => AllocEvent.free p.a q)).all
        (fun e => e.ref == p.a)) = true
      rw [List.all_eq_true]
      intro e he
      rcases List.mem_map.mp he with ⟨q, _, rfl⟩
      simp [AllocEvent.ref]
  | zeroMem =>
      refine ⟨rfl, ?_⟩
      show (((p.ptrs.zip p.sizes).map (fun qn => AllocEvent.zero p.a qn.1 qn.2)).all
        (fun e => e.ref == p.a)) = true
      rw [List.all_eq_true]
      intro e he
      rcases List.mem_map.mp he with ⟨qn, _, rfl⟩
      simp [AllocEvent.ref]

theorem DynamicCPUMemoryPool.run_a (p : DynamicCPUMemoryPool)
    (ops : List DCPOp) :
    (p.run ops).1.a = p.a ∧
      ((p.run ops).2.all (fun e => e.ref == p.a)) = true := by
  induction ops generalizing p with
  | nil => simp [DynamicCPUMemoryPool.run]
  | cons op ops ih =>
      obtain ⟨ha, hevs⟩ := p.step_a op
      obtain ⟨ha', hevs'⟩ := ih (p.step op).1
      refine ⟨?_, ?_⟩
      · show ((p.step op).1.run ops).1.a = p.a
        rw [ha', ha]
      · show (((p.step op).2 ++ ((p.step op).1.run ops).2).all
          (fun e => e.ref == p.a)) = true
        rw [List.all_append, hevs, Bool.true_and, ← ha]
        exact hevs'

theorem DynamicCPUMemoryPool.allocMany_spec (ns : List Nat)
    (p : DynamicCPUMemoryPool) :
    (p.allocMany ns).ptrs.length = p.ptrs.length + ns.length ∧
      (p.allocMany ns).a = p.a := by
  induction ns generalizing p with
  | nil => simp [DynamicCPUMemoryPool.allocMany]
  | cons n rest ih =>
      have hstep : p.allocMany (n :: rest) = ((p.allocate n).1).allocMany rest := rfl
      rw [hstep]
      obtain ⟨h1, h2⟩ := ih (p.allocate n).1
      refine ⟨?_, ?_⟩
      · rw [h1]
        simp [DynamicCPUMemoryPool.allocate]
        omega
      · rw [h2]
        rfl

/-- A pool holding exactly one Dynamic segment delegates `allocate` to it
(Dynamic segments always satisfy, so no growth happens). -/
theorem AlignedMemoryPool.allocate_dyn_singleton (p : AlignedMemoryPool)
    (d : DynamicCPUMemoryPool) (n : Nat) (hp : p.pools = [.dyn d])
    (hc : p.current = 0) :
    (p.allocate n).1 = { p with pools := [.dyn (d.allocate n).1] } := by
  simp [AlignedMemoryPool.allocate, hp, hc, Seg.canSatisfy, Seg.allocate]

theorem AlignedMemoryPool.allocMany_dyn_singleton (ns : List Nat)
    (p : AlignedMemoryPool) (d : DynamicCPUMemoryPool)
    (hp : p.pools = [.dyn d]) (hc : p.current = 0) :
    p.allocMany ns = { p with pools := [.dyn (d.allocMany ns)] } := by
  induction ns generalizing p d with
  | nil =>
      simp [AlignedMemoryPool.allocMany, DynamicCPUMemoryPool.allocMany, ← hp]
  | cons n rest ih =>
      have hstep : p.allocMany (n :: rest) = ((p.allocate n).1).allocMany rest := rfl
      rw [hstep, p.allocate_dyn_singleton d n hp hc]
      rw [ih { p with pools := [Seg.dyn (d.allocate n).1] } (d.allocate n).1 rfl hc]
      rfl

/-! ### Claim theorems -/

/-- C2: for every Fixed segment (`InternalMemoryPool`) in any state, `free()`
only resets the `used` cursor to 0 and performs no allocator call — the
backing buffer (address, capacity and contents) is untouched; the buffer is
returned to the allocator only by the destructor. -/
theorem C2_fixed_free_resets_cursor_only (p : InternalMemoryPool) :
    p.free.1.used = 0 ∧
      p.free.1.capacity = p.capacity ∧
      p.free.1.mem = p.mem ∧
      p.free.1.base_used = p.base_used ∧
      p.free.1.buf = p.buf ∧
      p.free.2 = [] ∧
      p.destruct = [AllocEvent.free .injected p.mem] := by
  refine ⟨rfl, rfl, rfl, rfl, rfl, rfl, rfl⟩

/-- C9: a Dynamic segment's constructor installs its own private host
(`CPUAllocator`) allocator — distinct from the injected one — and every
allocator call made by any sequence of `allocate`, `zero_allocated_memory`
and `free` operations after construction goes through that private
allocator. -/
theorem C9_dynamic_private_allocator (cap : Nat) (ops : List DCPOp) :
    (DynamicCPUMemoryPool.construct cap).1.a = .privateCPU ∧
      (AllocRef.privateCPU == AllocRef.injected) = false ∧
      ((((DynamicCPUMemoryPool.construct cap).1.run ops).2.all
        (fun e => e.ref == AllocRef.privateCPU)) = true) ∧
      (((DynamicCPUMemoryPool.construct cap).1.run ops).1.a = .privateCPU) := by
  obtain ⟨ha, hevs⟩ := (DynamicCPUMemoryPool.construct cap).1.run_a ops
  exact ⟨rfl, rfl, hevs, ha⟩

/-- C10: constructing a Dynamic segment with any capacity hint performs no
backend allocation (the hint is not eagerly reserved), and its `allocate`
never signals exhaustion (there is no capacity limit). -/
theorem C10_dynamic_no_eager_reservation (cap : Nat)
    (p : DynamicCPUMemoryPool) (n : Nat) :
    (DynamicCPUMemoryPool.construct cap).2 = [] ∧
      (p.allocate n).2.1.isSome = true := by
  exact ⟨rfl, rfl⟩

/-- C8: in a dynamic-mode pool, `free()` makes exactly one backend `free`
call per `allocate` call issued since the previous `free()` (or since
construction), releases precisely the recorded pointers, and clears both
bookkeeping lists; the same holds at the level of a whole dynamic-mode
`AlignedMemoryPool` built by the constructor. -/
theorem C8_dynamic_free_count (start : DynamicCPUMemoryPool) (ns : List Nat)
    (hstart : start.ptrs = []) :
    ((start.allocMany ns).free.2.length = ns.length ∧
      (start.allocMany ns).free.2
        = (start.allocMany ns).ptrs.map
            (fun q => AllocEvent.free (start.allocMany ns).a q) ∧
      (start.allocMany ns).free.1.ptrs = [] ∧
      (start.allocMany ns).free.1.sizes = []) ∧
    (∀ (align cap eu : Nat) (ms : List Nat),
      ((AlignedMemoryPool.construct align cap eu true).allocMany ms).free.2.length
        = ms.length) := by
  constructor
  · obtain ⟨hlen, _⟩ := DynamicCPUMemoryPool.allocMany_spec ns start
    refine ⟨?_, rfl, rfl, rfl⟩
    show ((start.allocMany ns).ptrs.map
      (fun q => AllocEvent.free (start.allocMany ns).a q)).length = ns.length
    rw [List.length_map, hlen, hstart]
    simp
  · intro align cap eu ms
    have hpool :
        (AlignedMemoryPool.construct align cap eu true).pools
          = [.dyn (DynamicCPUMemoryPool.construct cap).1] := by
      simp [AlignedMemoryPool.construct, AlignedMemoryPool.mkSeg]
    have hrun := AlignedMemoryPool.allocMany_dyn_singleton ms
      (AlignedMemoryPool.construct align cap eu true)
      (DynamicCPUMemoryPool.construct cap).1 hpool rfl
    rw [hrun]
    obtain ⟨hlen, _⟩ :=
      DynamicCPUMemoryPool.allocMany_spec ms (DynamicCPUMemoryPool.construct cap).1
    simp [DynamicCPUMemoryPool.construct] at hlen
    simp [AlignedMemoryPool.free, Seg.free, DynamicCPUMemoryPool.free,
      DynamicCPUMemoryPool.construct, hlen]

/-- C8 witness: the theorem applied to an empty segment and two allocation
requests. -/
theorem C8_dynamic_free_count_witness :
    (({ ptrs := [], sizes := [], a := .privateCPU, nextPtr := 0 } :
        DynamicCPUMemoryPool).allocMany [3, 4]).free.2.length = 2 ∧
    (({ ptrs := [], sizes := [], a := .privateCPU, nextPtr := 0 } :
        DynamicCPUMemoryPool).allocMany [3, 4]).free.1.ptrs = [] := by
  have h := C8_dynamic_free_count
    { ptrs := [], sizes := [], a := .privateCPU, nextPtr := 0 } [3, 4] rfl
  exact ⟨h.1.1, h.1.2.2.1⟩

/-! ### Fixed-segment helper lemmas -/

theorem InternalMemoryPool.step_base (align : Nat) (p : InternalMemoryPool)
    (op : IMPOp) (b : Nat) :
    ({ p with base_used := b } : InternalMemoryPool).step align op
      = { p.step align op with base_used := b } := by
  cases op with
  | alloc n =>
      show (({ p with base_used := b } :
          InternalMemoryPool).allocate align n).1
        = { (p.allocate align n).1 with base_used := b }
      unfold InternalMemoryPool.allocate
      by_cases h : p.used + round_up_align align n > p.capacity
      · simp [h]
      · simp [h]
  | free => rfl
  | zeroMem =>
      show (({ p with base_used := b } :
          InternalMemoryPool).zero_allocated_memory).1
        = { (p.zero_allocated_memory).1 with base_used := b }
      unfold InternalMemoryPool.zero_allocated_memory
      by_cases h : p.used = 0
      · simp [h]
      · simp [h]

theorem InternalMemoryPool.step_base_used (align : Nat)
    (p : InternalMemoryPool) (op : IMPOp) :
    (p.step align op).base_used = p.base_used := by
  have h := InternalMemoryPool.step_base align p op p.base_used
  have h2 : ({ p with base_used := p.base_used } : InternalMemoryPool) = p := rfl
  rw [h2] at h
  rw [h]

theorem seg_zero_used (g : Seg) :
    (g.zero_allocated_memory).1.used = g.used := by
  cases g with
  | fixed s =>
      show ((s.zero_allocated_memory).1 : InternalMemoryPool).used = s.used
      unfold InternalMemoryPool.zero_allocated_memory
      by_cases h : s.used = 0
      · simp [h]
      · simp [h]
  | dyn d => rfl

theorem seg_free_used (g : Seg) : (g.free).1.used = 0 := by
  cases g with
  | fixed s => rfl
  | dyn d => rfl

/-- The segments up to `current` after the pool's `zero_allocated_memory`. -/
theorem pool_zero_take (p : AlignedMemoryPool) :
    (p.zero_allocated_memory).1.pools.take (p.current + 1)
      = (p.pools.take (p.current + 1)).map
          (fun g => (Seg.zero_allocated_memory g).1) := by
  show (((p.pools.take (p.current + 1)).map Seg.zero_allocated_memory).map
      Prod.fst ++ p.pools.drop (p.current + 1)).take (p.current + 1) = _
  rw [List.map_map, List.take_append_eq_append_take]
  have hlen : ((p.pools.take (p.current + 1)).map
      (Prod.fst ∘ Seg.zero_allocated_memory)).length
      = (p.current + 1) ⊓ p.pools.length := by
    rw [List.length_map, List.length_take]
  rw [List.take_of_length_le (by rw [hlen]; omega)]
  rcases Nat.le_total (p.current + 1) p.pools.length with hle | hle
  · rw [hlen, Nat.min_eq_left hle, Nat.sub_self]
    simp
    rfl
  · rw [List.drop_eq_nil_of_le hle]
    simp
    rfl

/-! ### Claim theorems (continued) -/

/-- C5: `InternalMemoryPool`'s shadowing `used` member is the only cursor its
operations touch: any sequence of `allocate` / `free` /
`zero_allocated_memory` calls leaves the inherited `BaseMemoryPool::used`
field exactly as it started, and the whole run is oblivious to that field's
(uninitialized) value — so reading `used` through a `BaseMemoryPool` handle
never reflects the Fixed segment's cursor, only the untouched junk value. -/
theorem C5_inherited_used_never_touched (align : Nat)
    (p : InternalMemoryPool) (ops : List IMPOp) (b : Nat) :
    (p.run align ops).base_used = p.base_used ∧
      ({ p with base_used := b } : InternalMemoryPool).run align ops
        = { p.run align ops with base_used := b } := by
  induction ops generalizing p with
  | nil => exact ⟨rfl, rfl⟩
  | cons op ops ih =>
      obtain ⟨ih1, ih2⟩ := ih (p.step align op)
      constructor
      · show ((p.step align op).run align ops).base_used = p.base_used
        rw [ih1, InternalMemoryPool.step_base_used]
      · show (({ p with base_used := b } :
            InternalMemoryPool).step align op).run align ops
          = { (p.step align op).run align ops with base_used := b }
        rw [InternalMemoryPool.step_base, ih2]

/-- C7: `zero_allocated_memory` zeros exactly the bytes in [0, used) of a
Fixed segment's buffer, leaving the cursor and all other segment state
unchanged; at pool level it leaves `used()` unchanged, and afterwards every
active Fixed segment holds the zeroing of its old state — so every byte in
[0, used) of every active segment reads as zero. -/
theorem C7_zero_allocated_memory_exact (p : InternalMemoryPool)
    (pool : AlignedMemoryPool) (i : Nat) (s : InternalMemoryPool)
    (hi : i ≤ pool.current) (hs : pool.pools[i]? = some (.fixed s)) :
    ((p.zero_allocated_memory).1.used = p.used ∧
     (p.zero_allocated_memory).1.capacity = p.capacity ∧
     (p.zero_allocated_memory).1.mem = p.mem ∧
     (p.zero_allocated_memory).1.base_used = p.base_used ∧
     (∀ off, (p.zero_allocated_memory).1.buf off
        = if off < p.used then 0 else p.buf off)) ∧
    ((pool.zero_allocated_memory).1.used = pool.used ∧
     (pool.zero_allocated_memory).1.pools[i]?
        = some (.fixed (s.zero_allocated_memory).1) ∧
     (s.zero_allocated_memory).1.used = s.used ∧
     (∀ off, off < s.used → (s.zero_allocated_memory).1.buf off = 0)) := by
  have hseg : ∀ q : InternalMemoryPool,
      (q.zero_allocated_memory).1.used = q.used ∧
      (q.zero_allocated_memory).1.capacity = q.capacity ∧
      (q.zero_allocated_memory).1.mem = q.mem ∧
      (q.zero_allocated_memory).1.base_used = q.base_used ∧
      (∀ off, (q.zero_allocated_memory).1.buf off
        = if off < q.used then 0 else q.buf off) := by
    intro q
    unfold InternalMemoryPool.zero_allocated_memory
    by_cases h : q.used = 0
    · refine ⟨by simp [h], by simp [h], by simp [h], by simp [h], ?_⟩
      intro off
      simp [h]
    · refine ⟨by simp [h], by simp [h], by simp [h], by simp [h], ?_⟩
      intro off
      simp [h]
  have hilen : i < pool.pools.length := by
    rcases List.getElem?_eq_some.mp hs with ⟨hlt, _⟩
    exact hlt
  refine ⟨hseg p, ?_, ?_, (hseg s).1, ?_⟩
  · show (((pool.zero_allocated_memory).1.pools.take (pool.current + 1)).map
        Seg.used).sum = ((pool.pools.take (pool.current + 1)).map Seg.used).sum
    rw [pool_zero_take, List.map_map]
    congr 1
    apply List.map_congr_left
    intro g _
    exact seg_zero_used g
  · show ((((pool.pools.take (pool.current + 1)).map
        Seg.zero_allocated_memory).map Prod.fst
          ++ pool.pools.drop (pool.current + 1))[i]?) = _
    rw [List.getElem?_append]
    rw [if_pos (by rw [List.length_map, List.length_map, List.length_take]; omega)]
    rw [List.map_map, List.getElem?_map, List.getElem?_take]
    rw [if_pos (by omega), hs]
    rfl
  · intro off hoff
    rw [(hseg s).2.2.2.2 off, if_pos hoff]

/-! ### Allocation helper lemmas -/

/-- When the active segment is Fixed and the rounded request fits, the pool
delegates: the active segment's cursor advances by the rounded size and the
result is (current, old cursor). -/
theorem AlignedMemoryPool.allocate_fits (p : AlignedMemoryPool)
    (s : InternalMemoryPool) (n : Nat)
    (hp : p.pools[p.current]? = some (.fixed s))
    (hfit : s.used + round_up_align p.align n ≤ s.capacity) :
    p.allocate n
      = ({ p with pools := (p.pools.set p.current
            (.fixed { s with used := s.used + round_up_align p.align n })) },
         some (p.current, s.used)) := by
  unfold AlignedMemoryPool.allocate
  rw [hp]
  have hcan : Seg.canSatisfy p.align (.fixed s) n = true := by
    simp [Seg.canSatisfy]
    omega
  have hno : ¬ (s.used + round_up_align p.align n > s.capacity) := by omega
  simp [hcan, Seg.allocate, InternalMemoryPool.allocate, hno]

/-- Running `allocManyOff` on a Fixed segment with enough room: each call
returns the cursor so far, and the cursor ends at the rounded sum. -/
theorem allocManyOff_spec (align : Nat) (ns : List Nat)
    (p : InternalMemoryPool)
    (hcap : p.used + roundedTake align ns ns.length ≤ p.capacity) :
    (p.allocManyOff align ns).2
      = (List.range ns.length).map
          (fun i => some (p.used + roundedTake align ns i)) ∧
    (p.allocManyOff align ns).1.used
      = p.used + roundedTake align ns ns.length ∧
    (p.allocManyOff align ns).1.capacity = p.capacity := by
  induction ns generalizing p with
  | nil => simp [InternalMemoryPool.allocManyOff, roundedTake]
  | cons n rest ih =>
      simp only [List.length_cons] at hcap ⊢
      have hTake := roundedTake_cons align n rest rest.length
      rw [hTake] at hcap
      have hrn : ¬ (p.used + round_up_align align n > p.capacity) := by omega
      have halloc : p.allocate align n
          = ({ p with used := p.used + round_up_align align n }, some p.used) := by
        unfold InternalMemoryPool.allocate
        simp [hrn]
      have hfst : (p.allocate align n).1
          = { p with used := p.used + round_up_align align n } := by
        rw [halloc]
      have hstep : p.allocManyOff align (n :: rest)
          = (((p.allocate align n).1.allocManyOff align rest).1,
             some p.used :: ((p.allocate align n).1.allocManyOff align rest).2) := by
        simp only [InternalMemoryPool.allocManyOff, halloc]
      obtain ⟨ih1, ih2, ih3⟩ :=
        ih { p with used := p.used + round_up_align align n }
          (by
            show p.used + round_up_align align n
              + roundedTake align rest rest.length ≤ p.capacity
            omega)
      rw [hstep, hfst]
      refine ⟨?_, ?_, ?_⟩
      · show some p.used :: _ = _
        rw [ih1, List.range_succ_eq_map, List.map_cons, List.map_map]
        congr 1
        apply List.map_congr_left
        intro i _
        show some (p.used + round_up_align align n + roundedTake align rest i)
          = some (p.used + roundedTake align (n :: rest) (i + 1))
        rw [roundedTake_cons align n rest i, Nat.add_assoc]
      · show _ = p.used + roundedTake align (n :: rest) (rest.length + 1)
        rw [ih2, hTake, Nat.add_assoc]
      · exact ih3

/-- C6: for a sequence of `allocate(n_i)` calls on a fresh Fixed segment whose
alignment-rounded sizes sum to at most its capacity, the i-th allocation's
offset equals the alignment-rounded sum of all prior sizes, and the byte
ranges [offset_i, offset_i + n_i) of any two allocations do not overlap
(each ends no later than the next begins). -/
theorem C6_bump_offsets (align : Nat) (p : InternalMemoryPool) (ns : List Nat)
    (ha : 0 < align) (h0 : p.used = 0)
    (hcap : roundedTake align ns ns.length ≤ p.capacity) :
    ((p.allocManyOff align ns).2
      = (List.range ns.length).map (fun i => some (roundedTake align ns i))) ∧
    (∀ i j (hij : i < j) (hj : j < ns.length),
      roundedTake align ns i + ns.get ⟨i, Nat.lt_trans hij hj⟩
        ≤ roundedTake align ns j) := by
  obtain ⟨h1, _, _⟩ := allocManyOff_spec align ns p (by omega)
  constructor
  · rw [h1, h0]
    simp
  · intro i j hij hj
    have hstep := roundedTake_succ align ns (Nat.lt_trans hij hj)
    have hmono := roundedTake_mono align ns (i := i + 1) (j := j) hij
    have hge := round_up_align_ge align (ns.get ⟨i, Nat.lt_trans hij hj⟩) ha
    omega

/-- C6 witness: the theorem applied to a 1024-byte segment, alignment 4 and the
request sequence [500, 100, 8]. -/
theorem C6_bump_offsets_witness :
    ((InternalMemoryPool.allocManyOff 4
        { capacity := 1024, used := 0, base_used := 0, mem := 0,
          buf := fun _ => 0 } [500, 100, 8]).2
      = (List.range 3).map (fun i => some (roundedTake 4 [500, 100, 8] i))) ∧
    roundedTake 4 [500, 100, 8] 1 = 500 := by
  have h := C6_bump_offsets 4
    { capacity := 1024, used := 0, base_used := 0, mem := 0, buf := fun _ => 0 }
    [500, 100, 8] (by decide) rfl (by decide)
  exact ⟨h.1, by decide⟩

/-- C3: after the pool's `free()`, `current` is 0, every segment in the list
has had its `free()` invoked, `used()` is 0, and — when the first segment is
Fixed with its capacity a multiple of the alignment granularity — the next
`allocate(n)` with n at most that capacity is satisfied at the first
segment's base: offset 0 of segment 0. -/
theorem C3_pool_free_resets (p : AlignedMemoryPool) (s0 : InternalMemoryPool)
    (n : Nat) (h0 : p.pools[0]? = some (.fixed s0)) (ha : 0 < p.align)
    (hd : p.align ∣ s0.capacity) (hn : n ≤ s0.capacity) :
    p.free.1.current = 0 ∧
      p.free.1.pools = p.pools.map (fun g => (Seg.free g).1) ∧
      p.free.1.used = 0 ∧
      (p.free.1.allocate n).2 = some (0, 0) := by
  have hused0 : p.free.1.used = 0 := by
    show ((p.free.1.pools.take (p.free.1.current + 1)).map Seg.used).sum = 0
    apply List.sum_eq_zero
    intro x hx
    rcases List.mem_map.mp hx with ⟨g, hg, rfl⟩
    have hg' := List.mem_of_mem_take hg
    rcases List.mem_map.mp hg' with ⟨g0, _, rfl⟩
    exact seg_free_used g0
  refine ⟨rfl, rfl, hused0, ?_⟩
  have hget : p.free.1.pools[p.free.1.current]?
      = some (.fixed { s0 with used := 0 }) := by
    show (p.pools.map (fun g => (Seg.free g).1))[0]? = _
    rw [List.getElem?_map, h0]
    rfl
  have hfit : ({ s0 with used := 0 } : InternalMemoryPool).used
      + round_up_align p.free.1.align n
      ≤ ({ s0 with used := 0 } : InternalMemoryPool).capacity := by
    show 0 + round_up_align p.align n ≤ s0.capacity
    have := round_up_align_le_of_dvd p.align n s0.capacity ha hd hn
    omega
  rw [p.free.1.allocate_fits { s0 with used := 0 } n hget hfit]
  rfl

/-- C3 witness: the theorem applied to a one-segment pool (capacity 1024,
cursor at 500, alignment 4) and a request of 100 bytes. -/
theorem C3_pool_free_resets_witness :
    (({ pools := [.fixed { capacity := 1024, used := 500, base_used := 0, mem := 0, buf := fun _ => 0 }], current := 0, expanding_unit := 1024, dynamic := false, align := 4 } : AlignedMemoryPool).free.1.used = 0) ∧
    ((({ pools := [.fixed { capacity := 1024, used := 500, base_used := 0, mem := 0, buf := fun _ => 0 }], current := 0, expanding_unit := 1024, dynamic := false, align := 4 } : AlignedMemoryPool).free.1.allocate 100).2 = some (0, 0)) := by
  have h := C3_pool_free_resets
    { pools := [.fixed { capacity := 1024, used := 500, base_used := 0, mem := 0, buf := fun _ => 0 }], current := 0, expanding_unit := 1024, dynamic := false, align := 4 }
    { capacity := 1024, used := 500, base_used := 0, mem := 0, buf := fun _ => 0 }
    100 rfl (by decide) (by decide) (by decide)
  exact ⟨h.2.2.1, h.2.2.2⟩

/-- C7 witness: the theorem applied to a segment with capacity 8 and cursor 3
holding bytes i+1, inside a one-segment pool whose segment has capacity 8 and
cursor 2. -/
theorem C7_zero_allocated_memory_exact_witness :
    ((({ capacity := 8, used := 3, base_used := 7, mem := 100, buf := fun i => i + 1 } : InternalMemoryPool).zero_allocated_memory).1.used = 3) ∧
    ((({ capacity := 8, used := 3, base_used := 7, mem := 100, buf := fun i => i + 1 } : InternalMemoryPool).zero_allocated_memory).1.buf 1 = if (1 : Nat) < 3 then 0 else 1 + 1) ∧
    ((({ pools := [.fixed { capacity := 8, used := 2, base_used := 0, mem := 0, buf := fun i => i + 1 }], current := 0, expanding_unit := 16, dynamic := false, align := 1 } : AlignedMemoryPool).zero_allocated_memory).1.used = ({ pools := [.fixed { capacity := 8, used := 2, base_used := 0, mem := 0, buf := fun i => i + 1 }], current := 0, expanding_unit := 16, dynamic := false, align := 1 } : AlignedMemoryPool).used) ∧
    ((({ capacity := 8, used := 2, base_used := 0, mem := 0, buf := fun i => i + 1 } : InternalMemoryPool).zero_allocated_memory).1.buf 1 = 0) := by
  have h := C7_zero_allocated_memory_exact
    { capacity := 8, used := 3, base_used := 7, mem := 100, buf := fun i => i + 1 }
    { pools := [.fixed { capacity := 8, used := 2, base_used := 0, mem := 0, buf := fun i => i + 1 }], current := 0, expanding_unit := 16, dynamic := false, align := 1 }
    0
    { capacity := 8, used := 2, base_used := 0, mem := 0, buf := fun i => i + 1 }
    (by decide) rfl
  exact ⟨h.1.1, h.1.2.2.2.2 1, h.2.1, h.2.2.2.2 1 (by decide)⟩

/-- Pool-level `allocMany` within the current Fixed segment: when every
rounded request fits, only the current segment's cursor moves, by the sum of
the rounded sizes. -/
theorem AlignedMemoryPool.allocMany_fixed (ns : List Nat)
    (p : AlignedMemoryPool) (s : InternalMemoryPool)
    (hp : p.pools[p.current]? = some (.fixed s))
    (hcap : s.used + (ns.map (round_up_align p.align)).sum ≤ s.capacity) :
    p.allocMany ns
      = { p with pools := (p.pools.set p.current
            (.fixed { s with used := s.used + (ns.map (round_up_align p.align)).sum })) } := by
  induction ns generalizing p s with
  | nil =>
      show p = _
      have hs : ({ s with used := s.used + (([] : List Nat).map (round_up_align p.align)).sum } : InternalMemoryPool) = s := by
        simp
      rw [hs, list_set_of_getElem? hp]
  | cons n rest ih =>
      have hcur : p.current < p.pools.length := by
        rcases List.getElem?_eq_some.mp hp with ⟨hlt, _⟩
        exact hlt
      simp only [List.map_cons, List.sum_cons] at hcap
      have hrn : s.used + round_up_align p.align n ≤ s.capacity := by omega
      have hstep : p.allocMany (n :: rest) = ((p.allocate n).1).allocMany rest := rfl
      have hfst : (p.allocate n).1
          = { p with pools := (p.pools.set p.current
              (.fixed { s with used := s.used + round_up_align p.align n })) } := by
        rw [p.allocate_fits s n hp hrn]
      rw [hstep, hfst]
      have hp' : ({ p with pools := (p.pools.set p.current
            (.fixed { s with used := s.used + round_up_align p.align n })) }
          : AlignedMemoryPool).pools[p.current]?
          = some (.fixed { s with used := s.used + round_up_align p.align n }) := by
        show (p.pools.set p.current _)[p.current]? = _
        exact List.getElem?_set_self (by simpa using hcur)
      have hcap' : ({ s with used := s.used + round_up_align p.align n }
            : InternalMemoryPool).used
          + ((rest.map (round_up_align p.align)).sum)
          ≤ ({ s with used := s.used + round_up_align p.align n }
            : InternalMemoryPool).capacity := by
        show s.used + round_up_align p.align n
          + (rest.map (round_up_align p.align)).sum ≤ s.capacity
        omega
      rw [ih _ _ hp' hcap', List.set_set]
      simp only [List.map_cons, List.sum_cons, Nat.add_assoc]

/-- C4: checkpoint round-trip.  Record m = used(), perform any further
allocations that stay within the current Fixed segment, then call
set_used(m): the pool is restored exactly (so used() equals m and every
allocation committed before the checkpoint — the earlier segments and the
current segment's prefix — is unaffected), the in-segment cursor s.used
corresponds to aggregate offset m, and the next allocate() behaves exactly
as it would have at the checkpoint, reusing the byte range at offset m. -/
theorem C4_checkpoint_roundtrip (p : AlignedMemoryPool)
    (s : InternalMemoryPool) (ns : List Nat)
    (hp : p.pools[p.current]? = some (.fixed s))
    (hcap : s.used + (ns.map (round_up_align p.align)).sum ≤ s.capacity) :
    ((p.allocMany ns).set_used p.used = p) ∧
    (((p.allocMany ns).set_used p.used).used = p.used) ∧
    (((p.pools.take p.current).map Seg.used).sum + s.used = p.used) ∧
    (∀ k, ((p.allocMany ns).set_used p.used).allocate k = p.allocate k) := by
  have hcur : p.current < p.pools.length := by
    rcases List.getElem?_eq_some.mp hp with ⟨hlt, _⟩
    exact hlt
  have hm : p.used = ((p.pools.take p.current).map Seg.used).sum + s.used := by
    show ((p.pools.take (p.current + 1)).map Seg.used).sum = _
    rw [List.take_succ, hp]
    rw [Option.toList_some, List.map_append, List.sum_append]
    rfl
  have hrt : (p.allocMany ns).set_used p.used = p := by
    rw [AlignedMemoryPool.allocMany_fixed ns p s hp hcap]
    unfold AlignedMemoryPool.set_used
    have hget : ((p.pools.set p.current
        (.fixed { s with used := s.used + (ns.map (round_up_align p.align)).sum })))[p.current]?
        = some (.fixed { s with used := s.used + (ns.map (round_up_align p.align)).sum }) :=
      List.getElem?_set_self (by simpa using hcur)
    rw [hget]
    show ({ p with pools := (((p.pools.set p.current _).set p.current
      (Seg.setUsed _ _))) } : AlignedMemoryPool) = p
    rw [List.set_set]
    have hprior : (((p.pools.set p.current
        (.fixed { s with used := s.used + (ns.map (round_up_align p.align)).sum })).take p.current).map Seg.used).sum
        = ((p.pools.take p.current).map Seg.used).sum := by
      rw [list_take_set]
    rw [hprior]
    have hsub : p.used - ((p.pools.take p.current).map Seg.used).sum = s.used := by
      omega
    rw [hsub]
    show ({ p with pools := (p.pools.set p.current (.fixed s)) } : AlignedMemoryPool) = p
    rw [list_set_of_getElem? hp]
  refine ⟨hrt, by rw [hrt], by omega, fun k => by rw [hrt]⟩

/-- C4 witness: the theorem applied to a one-segment pool with cursor at 500
(alignment 4), a tentative allocation of 100 bytes, and rewind. -/
theorem C4_checkpoint_roundtrip_witness :
    ((({ pools := [.fixed { capacity := 1024, used := 500, base_used := 0, mem := 0, buf := fun _ => 0 }], current := 0, expanding_unit := 1024, dynamic := false, align := 4 } : AlignedMemoryPool).allocMany [100]).set_used ({ pools := [.fixed { capacity := 1024, used := 500, base_used := 0, mem := 0, buf := fun _ => 0 }], current := 0, expanding_unit := 1024, dynamic := false, align := 4 } : AlignedMemoryPool).used
      = ({ pools := [.fixed { capacity := 1024, used := 500, base_used := 0, mem := 0, buf := fun _ => 0 }], current := 0, expanding_unit := 1024, dynamic := false, align := 4 } : AlignedMemoryPool)) ∧
    ((({ pools := [.fixed { capacity := 1024, used := 500, base_used := 0, mem := 0, buf := fun _ => 0 }], current := 0, expanding_unit := 1024, dynamic := false, align := 4 } : AlignedMemoryPool).allocMany [100]).set_used ({ pools := [.fixed { capacity := 1024, used := 500, base_used := 0, mem := 0, buf := fun _ => 0 }], current := 0, expanding_unit := 1024, dynamic := false, align := 4 } : AlignedMemoryPool).used).used = 500 := by
  have h := C4_checkpoint_roundtrip
    { pools := [.fixed { capacity := 1024, used := 500, base_used := 0, mem := 0, buf := fun _ => 0 }], current := 0, expanding_unit := 1024, dynamic := false, align := 4 }
    { capacity := 1024, used := 500, base_used := 0, mem := 0, buf := fun _ => 0 }
    [100] rfl (by decide)
  exact ⟨h.1, h.2.1⟩

/-- Growth path of the pool's `allocate`: when the active segment cannot
satisfy the request (and the pool is in fixed mode), one new Fixed segment of
size max(n, expanding_unit) rounded to the alignment granularity is appended,
`current` moves to it, and the request is satisfied there at offset 0. -/
theorem AlignedMemoryPool.allocate_grow (p : AlignedMemoryPool) (g : Seg)
    (n : Nat) (hp : p.pools[p.current]? = some g)
    (hc : g.canSatisfy p.align n = false) (hdyn : p.dynamic = false) :
    p.allocate n
      = ({ p with
            pools := (p.pools ++ [.fixed { capacity := round_up_align p.align (max n p.expanding_unit), used := round_up_align p.align n, base_used := 0, mem := p.pools.length, buf := fun i => if i < round_up_align p.align (max n p.expanding_unit) then 0 else 0 }]),
            current := p.pools.length },
         some (p.pools.length, 0)) := by
  have hfit : ¬ (round_up_align p.align (max n p.expanding_unit)
      < round_up_align p.align n) := by
    have := round_up_align_mono p.align (Nat.le_max_left n p.expanding_unit)
    omega
  unfold AlignedMemoryPool.allocate
  rw [hp]
  simp [hc, hdyn, AlignedMemoryPool.mkSeg, Seg.allocate,
    InternalMemoryPool.construct, InternalMemoryPool.allocate, hfit]

/-- C1: whenever the active segment cannot satisfy an `allocate(n)` call (in
fixed mode), exactly one new segment is created — of size
max(n, expanding_unit) rounded to the alignment granularity — appended to the
segment list, `current` is advanced to it, and the request is satisfied from
the new segment at offset 0.  In particular, with initial capacity 1024 and
expanding_unit 1024 (alignment 4): allocate(500) returns offset 0 of segment
0; allocate(600) then returns offset 0 of a newly created segment 1 of size
1024; used() afterwards equals 1100. -/
theorem C1_growth_creates_one_segment :
    (∀ (p : AlignedMemoryPool) (g : Seg) (n : Nat),
      p.pools[p.current]? = some g →
      g.canSatisfy p.align n = false →
      p.dynamic = false →
      ((p.allocate n).1.pools.length = p.pools.length + 1 ∧
       (p.allocate n).1.pools.take p.pools.length = p.pools ∧
       (p.allocate n).1.current = p.pools.length ∧
       ((p.allocate n).1.pools[p.pools.length]?.map Seg.segmentCapacity)
         = some (round_up_align p.align (max n p.expanding_unit)) ∧
       ((p.allocate n).1.pools[p.pools.length]?.map Seg.used)
         = some (round_up_align p.align n) ∧
       (p.allocate n).2 = some (p.pools.length, 0))) ∧
    (((AlignedMemoryPool.construct 4 1024 1024 false).allocate 500).2
        = some (0, 0) ∧
     ((((AlignedMemoryPool.construct 4 1024 1024 false).allocate 500).1).allocate 600).2
        = some (1, 0) ∧
     (((((AlignedMemoryPool.construct 4 1024 1024 false).allocate 500).1).allocate 600).1).pools.length = 2 ∧
     (((((AlignedMemoryPool.construct 4 1024 1024 false).allocate 500).1).allocate 600).1).pools.map Seg.segmentCapacity = [1024, 1024] ∧
     (((((AlignedMemoryPool.construct 4 1024 1024 false).allocate 500).1).allocate 600).1).used = 1100) := by
  constructor
  · intro p g n hp hc hdyn
    rw [AlignedMemoryPool.allocate_grow p g n hp hc hdyn]
    refine ⟨by simp, List.take_left _ _, rfl, ?_, ?_, rfl⟩
    · show (p.pools ++ [_])[p.pools.length]?.map Seg.segmentCapacity = _
      rw [List.getElem?_concat_length]
      rfl
    · show (p.pools ++ [_])[p.pools.length]?.map Seg.used = _
      rw [List.getElem?_concat_length]
      rfl
  · refine ⟨by decide, by decide, by decide, by decide, by decide⟩

/-- C1 witness: the general growth statement applied to a full one-segment
pool (capacity 8, cursor 8, alignment 1, expanding_unit 8) and a 4-byte
request. -/
theorem C1_growth_creates_one_segment_witness :
    ((({ pools := [.fixed { capacity := 8, used := 8, base_used := 0, mem := 0, buf := fun _ => 0 }], current := 0, expanding_unit := 8, dynamic := false, align := 1 } : AlignedMemoryPool).allocate 4).1.pools.length = 2) ∧
    ((({ pools := [.fixed { capacity := 8, used := 8, base_used := 0, mem := 0, buf := fun _ => 0 }], current := 0, expanding_unit := 8, dynamic := false, align := 1 } : AlignedMemoryPool).allocate 4).2 = some (1, 0)) := by
  have h := C1_growth_creates_one_segment.1
    { pools := [.fixed { capacity := 8, used := 8, base_used := 0, mem := 0, buf := fun _ => 0 }], current := 0, expanding_unit := 8, dynamic := false, align := 1 }
    (.fixed { capacity := 8, used := 8, base_used := 0, mem := 0, buf := fun _ => 0 })
    4 rfl (by decide) rfl
  exact ⟨h.1, h.2.2.2.2.2⟩

end DynetMemPool
